import Mathlib

/-!
Verification of the rational-number and dynamic-array templates of the
repository (rational.h, vector.h).  Machine integers of the C++ code are
modelled as unbounded `Int` (the spec reasons over exact integer
arithmetic); C++ integer division truncates toward zero, hence `Int.tdiv`.
-/

namespace Lab

/-! ## rational.h : data model -/

/-- Model of std::experimental::gcd as called by rational_t::gcd
(rational.h line 234; the lines after that `return` are dead code):
the gcd of the absolute values, as a (nonnegative) integer. -/
def gcdI (a b : Int) : Int := Int.gcd a b

/-- The fields num_ and denom_ of rational_t (rational.h line 42). -/
structure rational where
  num : Int
  denom : Int
deriving DecidableEq, Repr

/-- The reduction step of rational_t::check after the sign of denom_ has
been fixed: divide both fields by their gcd (rational.h lines 50-52). -/
def reduce (n d : Int) : rational :=
  ⟨Int.tdiv n (gcdI n d), Int.tdiv d (gcdI n d)⟩

/-- rational_t::check (rational.h lines 44-53): if the denominator is
negative, negate both fields; then divide both by their gcd. -/
def check (num denom : Int) : rational :=
  if denom < 0 then reduce (-num) (-denom) else reduce num denom

/-- rational_t::rational_t(IntT, IntT) (rational.h lines 56-61): throws
std::invalid_argument when denom is 0, otherwise stores the pair and
normalizes it with check.  The thrown exception is modelled as `none`. -/
def rational.mk? (num denom : Int) : Option rational :=
  if denom = 0 then none else some (check num denom)

/-- The class invariant claimed by the spec: positive denominator and
canonical reduced form. -/
def valid (r : rational) : Prop := 0 < r.denom ∧ Int.gcd r.num r.denom = 1

instance (r : rational) : Decidable (valid r) := by
  unfold valid; infer_instance

/-- The exact rational value represented by a stored pair. -/
def toQ (r : rational) : ℚ := (r.num : ℚ) / (r.denom : ℚ)

/-- Unary operator- (rational.h lines 90-93): constructs
rational_t(-num_, denom_) through the checking constructor. -/
def neg? (b : rational) : Option rational := rational.mk? (-b.num) b.denom

/-- Binary operator+ (rational.h lines 150-159): common denominator
temp_denom = lhs.denom_ * rhs.denom_ / gcd(lhs.denom_, rhs.denom_),
numerator temp_num = temp_denom / lhs.denom_ * lhs.num_
+ temp_denom / rhs.denom_ * rhs.num_, then the checking constructor. -/
def add? (a b : rational) : Option rational :=
  rational.mk?
    (Int.tdiv (Int.tdiv (a.denom * b.denom) (gcdI a.denom b.denom)) a.denom * a.num
      + Int.tdiv (Int.tdiv (a.denom * b.denom) (gcdI a.denom b.denom)) b.denom * b.num)
    (Int.tdiv (a.denom * b.denom) (gcdI a.denom b.denom))

/-- Binary operator- (rational.h lines 162-166): operator+(lhs, -rhs). -/
def sub? (a b : rational) : Option rational := (neg? b).bind (fun nb => add? a nb)

/-- Binary operator* (rational.h lines 177-181). -/
def mul? (a b : rational) : Option rational :=
  rational.mk? (a.num * b.num) (a.denom * b.denom)

/-- Binary operator/ (rational.h lines 192-196): cross multiplication
through the checking constructor.  `none` marks the invalid_argument the
intermediate constructor raises; note operator/ itself is declared
noexcept, so at C++ runtime that raise calls std::terminate at the
noexcept boundary instead of propagating to the caller. -/
def div? (a b : rational) : Option rational :=
  rational.mk? (a.num * b.denom) (a.denom * b.num)

/-- operator== (rational.h lines 136-140): exact comparison of the stored
denominators and numerators. -/
def beq (a b : rational) : Bool := a.denom == b.denom && a.num == b.num

/-- operator< (rational.h lines 206-210): the numerator of the normalized
difference lhs - rhs is negative.  `none` when the subtraction throws. -/
def lt? (a b : rational) : Option Bool :=
  (sub? a b).map (fun c => decide (c.num < 0))

/-- operator> (rational.h lines 212-216): rhs < lhs. -/
def gt? (a b : rational) : Option Bool := lt? b a

/-! ## vector.h : data model -/

/-- The three exception kinds of vector.h: std::bad_alloc,
std::invalid_argument, std::out_of_range. -/
inductive VErr
  | badAlloc
  | invalidArgument
  | outOfRange
deriving DecidableEq, Repr

/-- The enum constants of vector (vector.h lines 26-30). -/
def initial_capacity : Nat := 10

def capacity_factor : Nat := 2

def capacity_sanitize_factor : Nat := capacity_factor * 2

/-- The state of a lab::vector: buf models the allocated block from start
to end_of_storage (so buf.length is the capacity) and sz models
finish - start.  Slots at index ≥ sz hold whatever was left there. -/
structure vec (α : Type) where
  buf : List α
  sz : Nat
deriving DecidableEq, Repr

/-- vector::capacity (vector.h lines 116-119): end_of_storage - start. -/
def capacity {α : Type} (v : vec α) : Nat := v.buf.length

/-- The logically present elements: the first sz slots of the block. -/
def contents {α : Type} (v : vec α) : List α := v.buf.take v.sz

/-- The representation invariant of the model: the finish pointer stays
inside the allocated block. -/
def wf {α : Type} (v : vec α) : Prop := v.sz ≤ v.buf.length

instance {α : Type} (v : vec α) : Decidable (wf v) := by
  unfold wf; infer_instance

/-- vector::allocate (vector.h lines 37-40): a null pointer (none) for
n = 0, otherwise a fresh block of n slots. -/
def allocate (α : Type) [Inhabited α] (n : Nat) : Option (List α) :=
  if n ≠ 0 then some (List.replicate n default) else none

/-- vector::create_storage (vector.h lines 47-56): throws std::bad_alloc
when allocate returned null, otherwise finish = start (size 0). -/
def create_storage (α : Type) [Inhabited α] (cap : Nat) : Except VErr (vec α) :=
  match allocate α cap with
  | none => .error .badAlloc
  | some b => .ok ⟨b, 0⟩

/-- vector::assign_content(size, from, to) with to = start of dst
(vector.h lines 65-72): copy the first n slots of src over dst. -/
def assign_content {α : Type} (dst : List α) (n : Nat) (src : List α) : List α :=
  src.take n ++ dst.drop n

/-- vector(size_type n) (vector.h lines 143-147): storage of
n * capacity_factor filled with n default-constructed elements. -/
def mkN (α : Type) [Inhabited α] (n : Nat) : Except VErr (vec α) :=
  (create_storage α (n * capacity_factor)).map
    (fun v => ⟨List.replicate n (default : α) ++ v.buf.drop n, n⟩)

/-- The copy constructor (vector.h lines 183-188): storage of
size * capacity_factor, then copy exactly size elements. -/
def copyCtor {α : Type} [Inhabited α] (src : vec α) : Except VErr (vec α) :=
  (create_storage α (src.sz * capacity_factor)).map
    (fun v => ⟨assign_content v.buf src.sz src.buf, src.sz⟩)

/-- The move constructor (vector.h lines 197-201): create_storage first
(its block is then replaced by move_content), then take the source's
block; move_content resets the source to a fresh empty block of
initial_capacity.  Returns (new vector, moved-from vector). -/
def moveCtor {α : Type} [Inhabited α] (other : vec α) : Except VErr (vec α × vec α) :=
  (create_storage α (other.sz * capacity_factor)).map
    (fun _ => (other, ⟨List.replicate initial_capacity (default : α), 0⟩))

/-- The initializer-list constructor (vector.h lines 210-215). -/
def fromList {α : Type} [Inhabited α] (l : List α) : Except VErr (vec α) :=
  (create_storage α (l.length * capacity_factor)).map
    (fun v => ⟨l ++ v.buf.drop l.length, l.length⟩)

/-- vector(size_type n, const_pointer p) (vector.h lines 167-173): throws
std::invalid_argument on a null pointer or n = 0; a null source is not
representable here, so the n = 0 test remains. -/
def fromBuf {α : Type} [Inhabited α] (n : Nat) (p : List α) : Except VErr (vec α) :=
  if n = 0 then .error .invalidArgument
  else (create_storage α (n * capacity_factor)).map
    (fun v => ⟨assign_content v.buf n p, n⟩)

/-- The success value of fromBuf for n ≠ 0. -/
def fromBufOk {α : Type} [Inhabited α] (n : Nat) (p : List α) : vec α :=
  ⟨assign_content (List.replicate (n * capacity_factor) (default : α)) n p, n⟩

/-- The success value of fromList for a nonempty list. -/
def fromListOk {α : Type} [Inhabited α] (l : List α) : vec α :=
  ⟨l ++ (List.replicate (l.length * capacity_factor) (default : α)).drop l.length,
    l.length⟩

/-- vector::clear (vector.h lines 242-246): deallocate and recreate
storage of initial_capacity (an allocation that always succeeds). -/
def clear {α : Type} [Inhabited α] (_ : vec α) : vec α :=
  ⟨List.replicate initial_capacity (default : α), 0⟩

/-- vector::reserve (vector.h lines 256-272): n = 0 behaves as clear;
n = capacity is a no-op; otherwise allocate a block of n slots, copy
new_size = min(n, size) elements into it and drop the old block. -/
def reserve {α : Type} [Inhabited α] (v : vec α) (n : Nat) : vec α :=
  if n = 0 then clear v
  else if n = capacity v then v
  else
    ⟨assign_content (List.replicate n (default : α))
        (if n < v.sz then n else v.sz) v.buf,
      if n < v.sz then n else v.sz⟩

/-- vector::sanitize (vector.h lines 96-100): shrink to
size * capacity_factor once capacity exceeds size * capacity_sanitize_factor. -/
def sanitize {α : Type} [Inhabited α] (v : vec α) : vec α :=
  if capacity v > v.sz * capacity_sanitize_factor then
    reserve v (v.sz * capacity_factor)
  else v

/-- vector::pop_back (vector.h lines 342-348). -/
def pop_back {α : Type} [Inhabited α] (v : vec α) : vec α :=
  if v.sz > 0 then sanitize ⟨v.buf, v.sz - 1⟩ else v

/-- vector::push_back (vector.h lines 358-363): grow to
(size + 1) * capacity_factor when full, then write at finish and bump it. -/
def push_back {α : Type} [Inhabited α] (v : vec α) (x : α) : vec α :=
  let w := if capacity v < v.sz + 1 then reserve v ((v.sz + 1) * capacity_factor) else v
  ⟨w.buf.set w.sz x, w.sz + 1⟩

/-- The modulus of size_t arithmetic on the 64-bit target: sums of
size_type values in vector.h wrap modulo 2^64. -/
def sizeTMod : Nat := 2 ^ 64

/-- The shifting loop of vector::erase (vector.h lines 328-331):
while pos + len < sz, start[pos] = start[pos + len]; ++pos.  Both the
guard sum and the read index are size_t sums that wrap modulo sizeTMod.
fuel bounds the remaining iterations, made explicit so the recursion is
structural. -/
def eraseLoopF {α : Type} [Inhabited α] :
    Nat → List α → Nat → Nat → Nat → List α × Nat
  | 0, buf, _, _, pos => (buf, pos)
  | fuel + 1, buf, len, sz, pos =>
      if (pos + len) % sizeTMod < sz then
        eraseLoopF fuel
          (buf.set pos (buf.getD ((pos + len) % sizeTMod) default)) len sz (pos + 1)
      else (buf, pos)

/-- The erase loop entered with its exact iteration count: the wrapped
guard value (pos + len) mod 2^64 starts below sz or the loop never runs,
and it grows by one per iteration until it reaches sz, so for any vector
whose size fits in size_t the loop runs exactly sz - (pos + len) % 2^64
times. -/
def eraseLoop {α : Type} [Inhabited α] (buf : List α) (len sz pos : Nat) :
    List α × Nat :=
  eraseLoopF (sz - (pos + len) % sizeTMod) buf len sz pos

/-- vector::erase (vector.h lines 321-335): nothing when pos > size;
len = 0 is replaced by size; shift the tail left; set finish; sanitize. -/
def erase {α : Type} [Inhabited α] (v : vec α) (pos len : Nat) : vec α :=
  if pos > v.sz then v
  else
    let r := eraseLoop v.buf (if len = 0 then v.sz else len) v.sz pos
    sanitize ⟨r.1, r.2⟩

/-- The copy loops of vector::insert (vector.h lines 389-393): write
src[0..n) into buf starting at index st. -/
def writeRange {α : Type} [Inhabited α] (buf : List α) (st : Nat) (src : List α) :
    Nat → List α
  | 0 => buf
  | n + 1 => (writeRange buf st src n).set (st + n) (src.getD n default)

/-- vector::insert(pos, p, p_size) (vector.h lines 375-397): clamp pos to
size; save the tail from pos through the raw-buffer constructor; grow to
res_size * capacity_factor when needed; write the p_size new elements at
pos; when pos was inside, append the saved tail; finish = start + res_size. -/
def insert {α : Type} [Inhabited α] (v : vec α) (pos : Nat) (p : List α)
    (p_size : Nat) : vec α :=
  let pos2 := if pos ≥ v.sz then v.sz else pos
  let temp : vec α :=
    if pos ≥ v.sz then ⟨List.replicate initial_capacity (default : α), 0⟩
    else fromBufOk (v.sz - pos) (v.buf.drop pos)
  let res_size := v.sz + p_size
  let w := if capacity v < res_size then reserve v (res_size * capacity_factor) else v
  let buf1 := writeRange w.buf pos2 p p_size
  let buf2 :=
    if pos2 ≠ w.sz then writeRange buf1 (pos2 + p_size) temp.buf temp.sz else buf1
  ⟨buf2, res_size⟩

/-- vector::insert(pos, vector, inserted_size = 0) (vector.h lines
398-404): a zero count defaults to the other container's full size. -/
def insertVec {α : Type} [Inhabited α] (v : vec α) (pos : Nat) (p : vec α)
    (inserted_size : Nat) : vec α :=
  insert v pos p.buf (if inserted_size = 0 then p.sz else inserted_size)

/-- vector::insert(pos, value) (vector.h lines 412-415):
insert(pos, vector{value}) with the defaulted count. -/
def insertOne {α : Type} [Inhabited α] (v : vec α) (pos : Nat) (x : α) : vec α :=
  insertVec v pos (fromListOk [x]) 0

/-- The non-const vector::operator[] (vector.h lines 424-428): throws
std::out_of_range for pos ≥ size, otherwise the slot at start + pos. -/
def getAt {α : Type} [Inhabited α] (v : vec α) (pos : Nat) : Except VErr α :=
  if pos ≥ v.sz then .error .outOfRange else .ok (v.buf.getD pos default)

/-- One mutation step of claim C2's operation sequences. -/
inductive Op (α : Type) where
  | push (x : α)
  | pop
  | ins (pos : Nat) (p : List α)
  | er (pos len : Nat)
deriving DecidableEq, Repr

def applyOp {α : Type} [Inhabited α] (v : vec α) : Op α → vec α
  | .push x => push_back v x
  | .pop => pop_back v
  | .ins pos p => insert v pos p p.length
  | .er pos len => erase v pos len

def applyOps {α : Type} [Inhabited α] (v : vec α) (ops : List (Op α)) : vec α :=
  ops.foldl applyOp v

/-- The logical contents each operation prescribes. -/
def modelOp {α : Type} (l : List α) : Op α → List α
  | .push x => l ++ [x]
  | .pop => l.dropLast
  | .ins pos p => if pos ≥ l.length then l ++ p else l.take pos ++ p ++ l.drop pos
  | .er pos len =>
      if pos > l.length then l
      else l.take pos ++ l.drop (pos + (if len = 0 then l.length else len))

def modelOps {α : Type} (l : List α) (ops : List (Op α)) : List α :=
  ops.foldl modelOp l

/-- An operation whose size_t index arithmetic does not wrap: only erase
adds a caller-chosen length to pos before comparing, so only erase can
wrap.  The size bound is the representability of size() in size_t. -/
def opNoWrap {α : Type} (v : vec α) : Op α → Bool
  | .er pos len =>
      decide (pos + (if len = 0 then v.sz else len) < sizeTMod ∧ v.sz < sizeTMod)
  | _ => true

/-- No step of the sequence wraps, evaluated along the actual states. -/
def opsNoWrap {α : Type} [Inhabited α] : vec α → List (Op α) → Bool
  | _, [] => true
  | v, op :: rest => opNoWrap v op && opsNoWrap (applyOp v op) rest

/-! ## rational.h : normalization lemmas -/

theorem reduce_spec (n d : Int) (hd : 0 < d) :
    0 < (reduce n d).denom ∧ Int.gcd (reduce n d).num (reduce n d).denom = 1 ∧
      toQ (reduce n d) = (n : ℚ) / (d : ℚ) := by
  set g : ℕ := Int.gcd n d with hgdef
  have hg : 0 < g := Int.gcd_pos_iff.mpr (Or.inr hd.ne')
  have hgz : (g : Int) ≠ 0 := by exact_mod_cast hg.ne'
  have hdl : (g : Int) ∣ n := by rw [hgdef]; exact Int.gcd_dvd_left
  have hdr : (g : Int) ∣ d := by rw [hgdef]; exact Int.gcd_dvd_right
  obtain ⟨n1, hn1⟩ := hdl
  obtain ⟨d1, hd1⟩ := hdr
  have hgI : gcdI n d = (g : Int) := by rw [gcdI, ← hgdef]
  have htn : Int.tdiv n (g : Int) = n1 := by
    rw [hn1]; exact Int.mul_tdiv_cancel_left _ hgz
  have htd : Int.tdiv d (g : Int) = d1 := by
    rw [hd1]; exact Int.mul_tdiv_cancel_left _ hgz
  have hred : reduce n d = ⟨n1, d1⟩ := by
    simp only [reduce, hgI, htn, htd]
  have hgQ : (0 : Int) < (g : Int) := by exact_mod_cast hg
  have hd1pos : 0 < d1 := by
    rcases mul_pos_iff.mp (hd1 ▸ hd) with h | h
    · exact h.2
    · linarith [h.1]
  have hgcd1 : Int.gcd n1 d1 = 1 := by
    have hmul : Int.gcd ((g : Int) * n1) ((g : Int) * d1) = g * Int.gcd n1 d1 := by
      rw [Int.gcd_mul_left]; simp
    have hself : g = g * Int.gcd n1 d1 := by
      rw [← hmul, ← hn1, ← hd1, ← hgdef]
    have h2 : g * 1 = g * Int.gcd n1 d1 := by omega
    exact (Nat.eq_of_mul_eq_mul_left hg h2).symm
  have hQ : (n1 : ℚ) / (d1 : ℚ) = (n : ℚ) / (d : ℚ) := by
    rw [hn1, hd1]
    push_cast
    rw [mul_div_mul_left]
    exact_mod_cast hgz
  rw [hred]
  exact ⟨hd1pos, hgcd1, by simpa [toQ] using hQ⟩

theorem check_spec (num denom : Int) (h : denom ≠ 0) :
    0 < (check num denom).denom ∧
      Int.gcd (check num denom).num (check num denom).denom = 1 ∧
      toQ (check num denom) = (num : ℚ) / (denom : ℚ) := by
  rw [check]
  split
  · next hneg =>
    have hs := reduce_spec (-num) (-denom) (by omega)
    refine ⟨hs.1, hs.2.1, ?_⟩
    rw [hs.2.2]
    push_cast
    rw [neg_div_neg_eq]
  · next hpos =>
    exact reduce_spec num denom (by omega)

theorem mk?_spec (num denom : Int) (h : denom ≠ 0) :
    rational.mk? num denom = some (check num denom) ∧ valid (check num denom) ∧
      toQ (check num denom) = (num : ℚ) / (denom : ℚ) := by
  have hs := check_spec num denom h
  exact ⟨by simp [rational.mk?, h], ⟨hs.1, hs.2.1⟩, hs.2.2⟩

theorem valid_denom_ne (r : rational) (hr : valid r) : (r.denom : ℚ) ≠ 0 := by
  exact_mod_cast hr.1.ne'

/-- Reduced pairs with positive denominator are canonical: equal values
force equal fields. -/
theorem canonical_inj (r s : rational) (hr : valid r) (hs : valid s)
    (h : toQ r = toQ s) : r = s := by
  have hrdQ := valid_denom_ne r hr
  have hsdQ := valid_denom_ne s hs
  have cross : r.num * s.denom = s.num * r.denom := by
    have hc := (div_eq_div_iff hrdQ hsdQ).mp h
    exact_mod_cast hc
  have hcop_r : IsCoprime (r.denom) (r.num) :=
    Int.isCoprime_iff_gcd_eq_one.mpr (by rw [Int.gcd_comm]; exact hr.2)
  have hcop_s : IsCoprime (s.denom) (s.num) :=
    Int.isCoprime_iff_gcd_eq_one.mpr (by rw [Int.gcd_comm]; exact hs.2)
  have hdvd1 : r.denom ∣ s.denom :=
    hcop_r.dvd_of_dvd_mul_left ⟨s.num, by rw [cross]; ring⟩
  have hdvd2 : s.denom ∣ r.denom :=
    hcop_s.dvd_of_dvd_mul_left ⟨r.num, by rw [← cross]; ring⟩
  have hdeq : r.denom = s.denom := Int.dvd_antisymm hr.1.le hs.1.le hdvd1 hdvd2
  have hneq : r.num = s.num := by
    have hsne : s.denom ≠ 0 := hs.1.ne'
    have : r.num * s.denom = s.num * s.denom := by rw [cross, hdeq]
    exact mul_right_cancel₀ hsne this
  cases r; cases s
  simp_all

/-! ## rational.h : arithmetic specifications -/

theorem neg?_spec (b : rational) (hb : valid b) :
    ∃ c, neg? b = some c ∧ valid c ∧ toQ c = -toQ b := by
  have hs := mk?_spec (-b.num) b.denom hb.1.ne'
  refine ⟨check (-b.num) b.denom, hs.1, hs.2.1, ?_⟩
  rw [hs.2.2, toQ]
  push_cast
  rw [neg_div]

theorem add?_spec (a b : rational) (ha : valid a) (hb : valid b) :
    ∃ c, add? a b = some c ∧ valid c ∧ toQ c = toQ a + toQ b := by
  obtain ⟨had, hag⟩ := ha
  obtain ⟨hbd, hbg⟩ := hb
  set g : ℕ := Int.gcd a.denom b.denom with hgdef
  have hg : 0 < g := Int.gcd_pos_iff.mpr (Or.inl had.ne')
  have hgz : (g : Int) ≠ 0 := by exact_mod_cast hg.ne'
  have hgQ : (0 : Int) < (g : Int) := by exact_mod_cast hg
  have hdl : (g : Int) ∣ a.denom := by rw [hgdef]; exact Int.gcd_dvd_left
  have hdr : (g : Int) ∣ b.denom := by rw [hgdef]; exact Int.gcd_dvd_right
  obtain ⟨e1, he1⟩ := hdl
  obtain ⟨e2, he2⟩ := hdr
  have he1pos : 0 < e1 := by
    rcases mul_pos_iff.mp (he1 ▸ had) with h | h
    · exact h.2
    · linarith [h.1]
  have he2pos : 0 < e2 := by
    rcases mul_pos_iff.mp (he2 ▸ hbd) with h | h
    · exact h.2
    · linarith [h.1]
  have hgI : gcdI a.denom b.denom = (g : Int) := by rw [gcdI, ← hgdef]
  have htd : Int.tdiv (a.denom * b.denom) (g : Int) = a.denom * e2 := by
    rw [he2, show a.denom * ((g : Int) * e2) = (g : Int) * (a.denom * e2) by ring]
    exact Int.mul_tdiv_cancel_left _ hgz
  have htd1 : Int.tdiv (a.denom * e2) a.denom = e2 :=
    Int.mul_tdiv_cancel_left _ had.ne'
  have htd2 : Int.tdiv (a.denom * e2) b.denom = e1 := by
    rw [he1, he2, show (g : Int) * e1 * e2 = ((g : Int) * e2) * e1 by ring]
    exact Int.mul_tdiv_cancel_left _ (by rw [← he2]; exact hbd.ne')
  have htdpos : 0 < a.denom * e2 := mul_pos had he2pos
  have hs := mk?_spec (e2 * a.num + e1 * b.num) (a.denom * e2) htdpos.ne'
  refine ⟨check (e2 * a.num + e1 * b.num) (a.denom * e2), ?_, hs.2.1, ?_⟩
  · rw [add?, hgI, htd, htd1, htd2,
      show e2 * a.num + e1 * b.num = e2 * a.num + e1 * b.num from rfl]
    exact hs.1
  · rw [hs.2.2, toQ, toQ]
    have hdaQ : (a.denom : ℚ) ≠ 0 := by exact_mod_cast had.ne'
    have hdbQ : (b.denom : ℚ) ≠ 0 := by exact_mod_cast hbd.ne'
    have he1Q : (b.denom : ℚ) = (g : ℚ) * (e2 : ℚ) := by exact_mod_cast congrArg Int.cast he2
    have he2Q : (a.denom : ℚ) = (g : ℚ) * (e1 : ℚ) := by exact_mod_cast congrArg Int.cast he1
    have hgQ' : (g : ℚ) ≠ 0 := by exact_mod_cast hg.ne'
    have he2Q' : (e2 : ℚ) ≠ 0 := by exact_mod_cast he2pos.ne'
    rw [div_add_div _ _ hdaQ hdbQ, div_eq_div_iff (by push_cast; positivity) (by positivity)]
    push_cast
    rw [he1Q, he2Q]
    ring

theorem sub?_spec (a b : rational) (ha : valid a) (hb : valid b) :
    ∃ c, sub? a b = some c ∧ valid c ∧ toQ c = toQ a - toQ b := by
  obtain ⟨nb, hnb, hvnb, hqnb⟩ := neg?_spec b hb
  obtain ⟨c, hc, hvc, hqc⟩ := add?_spec a nb ha hvnb
  refine ⟨c, ?_, hvc, by rw [hqc, hqnb]; ring⟩
  rw [sub?, hnb]
  exact hc

theorem mul?_spec (a b : rational) (ha : valid a) (hb : valid b) :
    ∃ c, mul? a b = some c ∧ valid c ∧ toQ c = toQ a * toQ b := by
  have hs := mk?_spec (a.num * b.num) (a.denom * b.denom) (mul_pos ha.1 hb.1).ne'
  refine ⟨_, hs.1, hs.2.1, ?_⟩
  rw [hs.2.2, toQ, toQ]
  push_cast
  rw [div_mul_div_comm]

theorem div?_spec (a b : rational) (ha : valid a) (hb : valid b) (hbn : b.num ≠ 0) :
    ∃ c, div? a b = some c ∧ valid c ∧ toQ c = toQ a / toQ b := by
  have hden : a.denom * b.num ≠ 0 := mul_ne_zero ha.1.ne' hbn
  have hs := mk?_spec (a.num * b.denom) (a.denom * b.num) hden
  refine ⟨_, hs.1, hs.2.1, ?_⟩
  rw [hs.2.2]
  simp only [toQ]
  have h1 : (a.denom : ℚ) ≠ 0 := valid_denom_ne a ha
  have h2 : (b.denom : ℚ) ≠ 0 := valid_denom_ne b hb
  have h3 : (b.num : ℚ) ≠ 0 := by exact_mod_cast hbn
  push_cast
  field_simp

theorem num_neg_iff (c : rational) (hc : valid c) : c.num < 0 ↔ toQ c < 0 := by
  have hd : (0 : ℚ) < (c.denom : ℚ) := by exact_mod_cast hc.1
  rw [toQ, div_neg_iff]
  constructor
  · intro h
    exact Or.inr ⟨by exact_mod_cast h, hd⟩
  · rintro (⟨h1, h2⟩ | ⟨h1, h2⟩)
    · linarith
    · exact_mod_cast h1

theorem num_zero_iff (c : rational) (hc : valid c) : c.num = 0 ↔ toQ c = 0 := by
  have hd : (c.denom : ℚ) ≠ 0 := valid_denom_ne c hc
  rw [toQ, div_eq_zero_iff]
  constructor
  · intro h
    exact Or.inl (by exact_mod_cast h)
  · rintro (h | h)
    · exact_mod_cast h
    · exact absurd h hd

theorem beq_iff (a b : rational) : beq a b = true ↔ a = b := by
  simp only [beq, Bool.and_eq_true, beq_iff_eq]
  constructor
  · rintro ⟨h1, h2⟩
    cases a; cases b
    simp_all
  · rintro rfl
    exact ⟨rfl, rfl⟩

/-! ## rational.h : claim theorems -/

/-- Claim C1: for every (num, denom) with denom ≠ 0 the constructor
succeeds and yields a strictly positive denominator and a fully reduced
pair; in particular rational(94, -64) constructs to -47/32. -/
theorem claim1_constructor_canonical (num denom : Int) (h : denom ≠ 0) :
    (∃ r, rational.mk? num denom = some r ∧ 0 < r.denom ∧
        Int.gcd r.num r.denom = 1) ∧
      rational.mk? 94 (-64) = some ⟨-47, 32⟩ := by
  have hs := mk?_spec num denom h
  exact ⟨⟨check num denom, hs.1, hs.2.1.1, hs.2.1.2⟩, by decide⟩

theorem claim1_constructor_canonical_witness :
    (∃ r, rational.mk? 94 (-64) = some r ∧ 0 < r.denom ∧
        Int.gcd r.num r.denom = 1) ∧
      rational.mk? 94 (-64) = some ⟨-47, 32⟩ :=
  claim1_constructor_canonical 94 (-64) (by decide)

/-- Claim C7: for valid rationals a, b the computations a + b - b and,
when b.num ≠ 0, (a * b) / b both succeed and return exactly a (field
equality, which operator== compares). -/
theorem claim7_arithmetic_closure (a b : rational) (ha : valid a) (hb : valid b) :
    (add? a b).bind (fun c => sub? c b) = some a ∧
      (b.num ≠ 0 → (mul? a b).bind (fun c => div? c b) = some a) := by
  constructor
  · obtain ⟨c1, hc1, hv1, hq1⟩ := add?_spec a b ha hb
    obtain ⟨c2, hc2, hv2, hq2⟩ := sub?_spec c1 b hv1 hb
    have he : c2 = a := canonical_inj c2 a hv2 ha (by rw [hq2, hq1]; ring)
    rw [hc1, Option.some_bind, hc2, he]
  · intro hbn
    obtain ⟨c1, hc1, hv1, hq1⟩ := mul?_spec a b ha hb
    obtain ⟨c2, hc2, hv2, hq2⟩ := div?_spec c1 b hv1 hb hbn
    have hbq : toQ b ≠ 0 := fun hz => hbn ((num_zero_iff b hb).mpr hz)
    have he : c2 = a := by
      refine canonical_inj c2 a hv2 ha ?_
      rw [hq2, hq1, mul_div_assoc, div_self hbq, mul_one]
    rw [hc1, Option.some_bind, hc2, he]

theorem claim7_arithmetic_closure_witness :
    (add? ⟨1, 2⟩ ⟨2, 3⟩).bind (fun c => sub? c ⟨2, 3⟩) = some ⟨1, 2⟩ ∧
      (mul? ⟨1, 2⟩ ⟨2, 3⟩).bind (fun c => div? c ⟨2, 3⟩) = some ⟨1, 2⟩ := by
  have h := claim7_arithmetic_closure ⟨1, 2⟩ ⟨2, 3⟩ (by decide) (by decide)
  exact ⟨h.1, h.2 (by decide)⟩

/-- Claim C8: for valid rationals a, b exactly one of a < b, a == b,
a > b holds, with < decided through the sign of the numerator of the
normalized difference and == comparing the reduced fields. -/
theorem claim8_comparison_trichotomy (a b : rational) (ha : valid a) (hb : valid b) :
    (lt? a b = some true ∧ beq a b = false ∧ gt? a b = some false) ∨
      (lt? a b = some false ∧ beq a b = true ∧ gt? a b = some false) ∨
      (lt? a b = some false ∧ beq a b = false ∧ gt? a b = some true) := by
  obtain ⟨c, hc, hvc, hqc⟩ := sub?_spec a b ha hb
  obtain ⟨d, hd, hvd, hqd⟩ := sub?_spec b a hb ha
  have hlt : lt? a b = some (decide (c.num < 0)) := by
    rw [lt?, hc]
    rfl
  have hgt : gt? a b = some (decide (d.num < 0)) := by
    rw [gt?, lt?, hd]
    rfl
  rcases lt_trichotomy (toQ a) (toQ b) with h | h | h
  · left
    have h1 : c.num < 0 := (num_neg_iff c hvc).mpr (by rw [hqc]; linarith)
    have h2 : ¬d.num < 0 := by
      rw [num_neg_iff d hvd, hqd]
      linarith
    have h3 : a ≠ b := by
      intro he
      rw [he] at h
      exact lt_irrefl _ h
    refine ⟨?_, ?_, ?_⟩
    · rw [hlt, decide_eq_true h1]
    · rw [← Bool.not_eq_true, beq_iff]
      exact h3
    · rw [hgt, decide_eq_false h2]
  · right; left
    have he : a = b := canonical_inj a b ha hb h
    have h1 : ¬c.num < 0 := by
      rw [num_neg_iff c hvc, hqc]
      linarith
    have h2 : ¬d.num < 0 := by
      rw [num_neg_iff d hvd, hqd]
      linarith
    refine ⟨?_, (beq_iff a b).mpr he, ?_⟩
    · rw [hlt, decide_eq_false h1]
    · rw [hgt, decide_eq_false h2]
  · right; right
    have h1 : ¬c.num < 0 := by
      rw [num_neg_iff c hvc, hqc]
      linarith
    have h2 : d.num < 0 := (num_neg_iff d hvd).mpr (by rw [hqd]; linarith)
    have h3 : a ≠ b := by
      intro he
      rw [he] at h
      exact lt_irrefl _ h
    refine ⟨?_, ?_, ?_⟩
    · rw [hlt, decide_eq_false h1]
    · rw [← Bool.not_eq_true, beq_iff]
      exact h3
    · rw [hgt, decide_eq_true h2]

theorem claim8_comparison_trichotomy_witness :
    (lt? ⟨1, 2⟩ ⟨2, 3⟩ = some true ∧ beq ⟨1, 2⟩ ⟨2, 3⟩ = false ∧
        gt? ⟨1, 2⟩ ⟨2, 3⟩ = some false) ∨
      (lt? ⟨1, 2⟩ ⟨2, 3⟩ = some false ∧ beq ⟨1, 2⟩ ⟨2, 3⟩ = true ∧
        gt? ⟨1, 2⟩ ⟨2, 3⟩ = some false) ∨
      (lt? ⟨1, 2⟩ ⟨2, 3⟩ = some false ∧ beq ⟨1, 2⟩ ⟨2, 3⟩ = false ∧
        gt? ⟨1, 2⟩ ⟨2, 3⟩ = some true) :=
  claim8_comparison_trichotomy ⟨1, 2⟩ ⟨2, 3⟩ (by decide) (by decide)

/-- Claim C9, evaluated at the failing input: dividing a valid rational by
a rational with zero numerator builds the cross-multiplied intermediate
whose denominator is a.denom * 0 = 0, and the checking constructor raises
the same invalid_argument as direct construction with a zero denominator
(modelled as none).  At C++ runtime this raise happens inside the
noexcept operator/, so std::terminate aborts the program and the error is
never signaled to the caller the way the claim asserts: the blanket
noexcept on operator/, which calls the deliberately noexcept(false)
constructor, defeats the intended propagation. -/
theorem claim9_division_by_zero_rational (a b : rational) (ha : valid a)
    (hbn : b.num = 0) :
    div? a b = rational.mk? (a.num * b.denom) (a.denom * b.num) ∧
      a.denom * b.num = 0 ∧ div? a b = none ∧ rational.mk? a.num 0 = none := by
  refine ⟨rfl, by rw [hbn, mul_zero], ?_, by rw [rational.mk?]; simp⟩
  rw [div?, hbn, mul_zero, rational.mk?]
  simp

theorem claim9_division_by_zero_rational_witness :
    div? ⟨1, 2⟩ ⟨0, 1⟩ = rational.mk? (1 * 1) (2 * 0) ∧
      (2 : Int) * 0 = 0 ∧ div? ⟨1, 2⟩ ⟨0, 1⟩ = none ∧
      rational.mk? 1 0 = none :=
  claim9_division_by_zero_rational ⟨1, 2⟩ ⟨0, 1⟩ (by decide) (by decide)

/-! ## vector.h : list lemmas -/

theorem contents_length {α : Type} (v : vec α) (hwf : wf v) :
    (contents v).length = v.sz := by
  rw [contents, List.length_take]
  unfold wf at hwf
  omega

theorem take_set_succ {α : Type} (l : List α) (i : Nat) (x : α) (h : i < l.length) :
    (l.set i x).take (i + 1) = l.take i ++ [x] := by
  rw [List.set_eq_take_append_cons_drop, if_pos h]
  have hlen : (l.take i).length = i := by rw [List.length_take]; omega
  rw [show i + 1 = (l.take i).length + 1 by omega, List.take_append]
  simp

theorem take_succ_getD {α : Type} [Inhabited α] (l : List α) (n : Nat)
    (h : n < l.length) : l.take (n + 1) = l.take n ++ [l.getD n default] := by
  rw [List.take_succ, List.getD_eq_getElem l default h]
  simp [List.getElem?_eq_getElem h]

theorem eraseLoopF_length {α : Type} [Inhabited α] (fuel : Nat) :
    ∀ (buf : List α) (len sz pos : Nat),
      (eraseLoopF fuel buf len sz pos).1.length = buf.length := by
  induction fuel with
  | zero => intro buf len sz pos; rfl
  | succ n ih =>
    intro buf len sz pos
    simp only [eraseLoopF]
    split
    · rw [ih]
      exact List.length_set ..
    · rfl

/-- Behavior of the erase loop on runs whose size_t sums do not wrap:
pos + len below 2^64 on entry and a size representable in size_t keep
every guard evaluation unwrapped. -/
theorem eraseLoopF_spec {α : Type} [Inhabited α] (len sz : Nat)
    (hsmod : sz < sizeTMod) :
    ∀ (fuel : Nat) (buf : List α) (pos : Nat), sz - (pos + len) ≤ fuel →
      sz ≤ buf.length → pos + len < sizeTMod →
      (eraseLoopF fuel buf len sz pos).2 = max pos (sz - len) ∧
      (eraseLoopF fuel buf len sz pos).1.take (max pos (sz - len)) =
        buf.take pos ++ (buf.drop (pos + len)).take (sz - (pos + len)) := by
  intro fuel
  induction fuel with
  | zero =>
    intro buf pos hf hsz hnw
    simp only [eraseLoopF]
    have hmax : max pos (sz - len) = pos := by omega
    have h0 : sz - (pos + len) = 0 := by omega
    rw [hmax, h0]
    exact ⟨rfl, by simp⟩
  | succ n ih =>
    intro buf pos hf hsz hnw
    simp only [eraseLoopF]
    rw [Nat.mod_eq_of_lt hnw]
    split
    · next hlt =>
      have hih := ih (buf.set pos (buf.getD (pos + len) default)) (pos + 1)
        (by omega) (by rw [List.length_set]; exact hsz) (by omega)
      have hmax1 : max (pos + 1) (sz - len) = sz - len := by omega
      have hmax0 : max pos (sz - len) = sz - len := by omega
      rw [hmax1] at hih
      rw [hmax0]
      refine ⟨hih.1, ?_⟩
      rw [hih.2]
      have hposlen : pos + len < buf.length := by omega
      have hpos : pos < buf.length := by omega
      rw [take_set_succ buf pos _ hpos]
      rw [List.drop_set, if_pos (by omega)]
      have hdropcons : buf.drop (pos + len) =
          buf.getD (pos + len) default :: buf.drop (pos + len + 1) := by
        rw [List.getD_eq_getElem buf default hposlen]
        exact List.drop_eq_getElem_cons hposlen
      rw [hdropcons]
      have hsub : sz - (pos + len) = (sz - (pos + 1 + len)) + 1 := by omega
      rw [hsub, List.take_succ_cons]
      have hidx : pos + 1 + len = pos + len + 1 := by omega
      rw [hidx]
      simp [List.append_assoc]
    · next hge =>
      have hmax : max pos (sz - len) = pos := by omega
      have h0 : sz - (pos + len) = 0 := by omega
      rw [hmax, h0]
      exact ⟨rfl, by simp⟩

theorem eraseLoop_spec {α : Type} [Inhabited α] (buf : List α) (len sz pos : Nat)
    (hsz : sz ≤ buf.length) (hnw : pos + len < sizeTMod) (hsmod : sz < sizeTMod) :
    (eraseLoop buf len sz pos).2 = max pos (sz - len) ∧
      (eraseLoop buf len sz pos).1.take (max pos (sz - len)) =
        buf.take pos ++ (buf.drop (pos + len)).take (sz - (pos + len)) ∧
      (eraseLoop buf len sz pos).1.length = buf.length := by
  have hfuel : sz - (pos + len) ≤ sz - (pos + len) % sizeTMod := by
    rw [Nat.mod_eq_of_lt hnw]
  have h := eraseLoopF_spec len sz hsmod (sz - (pos + len) % sizeTMod) buf pos
    hfuel hsz hnw
  exact ⟨h.1, h.2, eraseLoopF_length ..⟩

theorem writeRange_length {α : Type} [Inhabited α] (buf : List α) (st : Nat)
    (src : List α) (n : Nat) : (writeRange buf st src n).length = buf.length := by
  induction n with
  | zero => rfl
  | succ k ih =>
    show ((writeRange buf st src k).set (st + k) (src.getD k default)).length = _
    rw [List.length_set, ih]

theorem writeRange_spec {α : Type} [Inhabited α] (buf : List α) (st : Nat)
    (src : List α) (n : Nat) (hn : n ≤ src.length) (hb : st + n ≤ buf.length) :
    writeRange buf st src n = buf.take st ++ src.take n ++ buf.drop (st + n) := by
  induction n with
  | zero =>
    show buf = buf.take st ++ src.take 0 ++ buf.drop (st + 0)
    simp
  | succ k ih =>
    show (writeRange buf st src k).set (st + k) (src.getD k default) = _
    rw [ih (by omega) (by omega)]
    have hA : (buf.take st).length = st := by rw [List.length_take]; omega
    have hB : (src.take k).length = k := by rw [List.length_take]; omega
    have hAB : (buf.take st ++ src.take k).length = st + k := by
      rw [List.length_append, hA, hB]
    have hC : buf.drop (st + k) =
        buf.getD (st + k) default :: buf.drop (st + k + 1) := by
      rw [List.getD_eq_getElem buf default (by omega)]
      exact List.drop_eq_getElem_cons (by omega)
    rw [List.set_append, if_neg (by omega)]
    rw [show st + k - (buf.take st ++ src.take k).length = 0 by omega]
    rw [hC, List.set_cons_zero]
    rw [take_succ_getD src k (by omega)]
    rw [show st + (k + 1) = st + k + 1 by omega]
    simp [List.append_assoc]

/-! ## vector.h : operation specifications -/

theorem clear_spec {α : Type} [Inhabited α] (v : vec α) :
    (clear v).sz = 0 ∧ capacity (clear v) = initial_capacity ∧
      contents (clear v) = [] ∧ wf (clear v) := by
  refine ⟨rfl, ?_, rfl, ?_⟩
  · rw [capacity, clear, List.length_replicate]
  · rw [wf]
    simp [clear]

theorem reserve_pos_spec {α : Type} [Inhabited α] (v : vec α) (n : Nat)
    (hwf : wf v) (h0 : n ≠ 0) :
    capacity (reserve v n) = n ∧ (reserve v n).sz = min n v.sz ∧
      contents (reserve v n) = (contents v).take n ∧ wf (reserve v n) := by
  rw [reserve, if_neg h0]
  rw [wf] at hwf
  by_cases hcap : n = capacity v
  · rw [if_pos hcap]
    rw [capacity] at hcap
    refine ⟨by rw [capacity]; omega, by omega, ?_, hwf⟩
    exact (List.take_of_length_le (by rw [contents_length v hwf]; omega)).symm
  · rw [if_neg hcap]
    have hns : (if n < v.sz then n else v.sz) = min n v.sz := by
      split <;> omega
    have hlenA : (v.buf.take (min n v.sz)).length = min n v.sz := by
      rw [List.length_take]; omega
    refine ⟨?_, by rw [hns], ?_, ?_⟩
    · rw [capacity]
      show (assign_content _ _ _).length = n
      rw [hns, assign_content, List.length_append, List.length_take,
        List.length_drop, List.length_replicate]
      omega
    · show (assign_content _ (if n < v.sz then n else v.sz) _).take
        (if n < v.sz then n else v.sz) = (contents v).take n
      rw [hns, assign_content, List.take_append_of_le_length (by omega),
        List.take_take, contents, List.take_take]
      congr 1
      omega
    · show (if n < v.sz then n else v.sz) ≤ (assign_content _ _ _).length
      rw [hns, assign_content, List.length_append, List.length_take,
        List.length_drop, List.length_replicate]
      omega

theorem sanitize_spec {α : Type} [Inhabited α] (v : vec α) (hwf : wf v) :
    (sanitize v).sz = v.sz ∧ contents (sanitize v) = contents v ∧
      wf (sanitize v) := by
  rw [sanitize]
  split
  · next hbig =>
    have hcf : capacity_factor = 2 := rfl
    by_cases hz : v.sz = 0
    · have h00 : v.sz * capacity_factor = 0 := by rw [hz, Nat.zero_mul]
      rw [h00, reserve, if_pos rfl]
      have hc := clear_spec v
      refine ⟨by rw [hc.1, hz], ?_, hc.2.2.2⟩
      rw [hc.2.2.1, contents, hz]
      rfl
    · have h0 : v.sz * capacity_factor ≠ 0 := by rw [hcf]; omega
      have hs := reserve_pos_spec v (v.sz * capacity_factor) hwf h0
      refine ⟨?_, ?_, hs.2.2.2⟩
      · rw [hs.2.1, hcf]; omega
      · rw [hs.2.2.1]
        exact List.take_of_length_le (by rw [contents_length v hwf, hcf]; omega)
  · next hsmall =>
    exact ⟨rfl, rfl, hwf⟩

theorem push_back_spec {α : Type} [Inhabited α] (v : vec α) (x : α) (hwf : wf v) :
    (push_back v x).sz = v.sz + 1 ∧
      contents (push_back v x) = contents v ++ [x] ∧ wf (push_back v x) := by
  simp only [push_back]
  set W := (if capacity v < v.sz + 1 then reserve v ((v.sz + 1) * capacity_factor)
    else v) with hW
  have hcf : capacity_factor = 2 := rfl
  have hWfacts : W.sz = v.sz ∧ contents W = contents v ∧ v.sz + 1 ≤ capacity W := by
    rw [hW]
    by_cases h : capacity v < v.sz + 1
    · rw [if_pos h]
      have h0 : (v.sz + 1) * capacity_factor ≠ 0 := by rw [hcf]; omega
      have hs := reserve_pos_spec v ((v.sz + 1) * capacity_factor) hwf h0
      refine ⟨by rw [hs.2.1, hcf]; omega, ?_, by rw [hs.1, hcf]; omega⟩
      rw [hs.2.2.1]
      exact List.take_of_length_le (by rw [contents_length v hwf, hcf]; omega)
    · rw [if_neg h]
      exact ⟨rfl, rfl, by omega⟩
  obtain ⟨hWsz, hWc, hWcap⟩ := hWfacts
  rw [capacity] at hWcap
  refine ⟨?_, ?_, ?_⟩
  · show W.sz + 1 = v.sz + 1
    omega
  · show (W.buf.set W.sz x).take (W.sz + 1) = contents v ++ [x]
    rw [take_set_succ W.buf W.sz x (by omega)]
    rw [show W.buf.take W.sz = contents W from rfl, hWc]
  · show W.sz + 1 ≤ (W.buf.set W.sz x).length
    rw [List.length_set]
    omega

theorem pop_back_spec {α : Type} [Inhabited α] (v : vec α) (hwf : wf v) :
    (pop_back v).sz = v.sz - 1 ∧
      contents (pop_back v) = (contents v).dropLast ∧ wf (pop_back v) := by
  rw [pop_back]
  split
  · next hpos =>
    have hwf2 : wf (⟨v.buf, v.sz - 1⟩ : vec α) := by
      rw [wf] at *
      show v.sz - 1 ≤ v.buf.length
      omega
    have hs := sanitize_spec ⟨v.buf, v.sz - 1⟩ hwf2
    refine ⟨by rw [hs.1], ?_, hs.2.2⟩
    rw [hs.2.1]
    show v.buf.take (v.sz - 1) = (contents v).dropLast
    rw [List.dropLast_eq_take, contents_length v hwf, contents, List.take_take]
    congr 1
    omega
  · next hz =>
    have h0 : v.sz = 0 := by omega
    have hc : contents v = [] := by rw [contents, h0]; rfl
    exact ⟨by omega, by rw [hc]; rfl, hwf⟩

theorem erase_spec {α : Type} [Inhabited α] (v : vec α) (pos len : Nat)
    (hwf : wf v) (hsmod : v.sz < sizeTMod) :
    (pos > v.sz → erase v pos len = v) ∧
    (pos ≤ v.sz → pos + (if len = 0 then v.sz else len) < sizeTMod →
      (erase v pos len).sz = max pos (v.sz - (if len = 0 then v.sz else len)) ∧
      contents (erase v pos len) =
        (contents v).take pos ++
          (contents v).drop (pos + (if len = 0 then v.sz else len)) ∧
      wf (erase v pos len)) := by
  constructor
  · intro h
    rw [erase, if_pos h]
  · intro hpos hnw
    simp only [erase]
    rw [if_neg (by omega)]
    have hsz : v.sz ≤ v.buf.length := hwf
    have hel := eraseLoop_spec v.buf (if len = 0 then v.sz else len) v.sz pos hsz
      hnw hsmod
    set len2 := if len = 0 then v.sz else len with hlen2
    set r := eraseLoop v.buf len2 v.sz pos with hr
    have hwfr : wf (⟨r.1, r.2⟩ : vec α) := by
      show r.2 ≤ r.1.length
      rw [hel.1, hel.2.2]
      omega
    have hs := sanitize_spec ⟨r.1, r.2⟩ hwfr
    refine ⟨?_, ?_, hs.2.2⟩
    · rw [hs.1]
      exact hel.1
    · rw [hs.2.1]
      show r.1.take r.2 = _
      rw [hel.1, hel.2.1, contents, List.take_take, List.drop_take,
        show min pos v.sz = pos by omega]

theorem insert_spec {α : Type} [Inhabited α] (v : vec α) (pos : Nat) (p : List α)
    (p_size : Nat) (hwf : wf v) (hp : p_size ≤ p.length) :
    (insert v pos p p_size).sz = v.sz + p_size ∧
      wf (insert v pos p p_size) ∧
      contents (insert v pos p p_size) =
        if pos ≥ v.sz then contents v ++ p.take p_size
        else (contents v).take pos ++ p.take p_size ++ (contents v).drop pos := by
  have hcf : capacity_factor = 2 := rfl
  have hbuf : v.sz ≤ v.buf.length := hwf
  simp only [insert]
  set pos2 := if pos ≥ v.sz then v.sz else pos with hpos2
  set temp := (if pos ≥ v.sz then (⟨List.replicate initial_capacity default, 0⟩ : vec α)
    else fromBufOk (v.sz - pos) (v.buf.drop pos)) with htemp
  set w := (if capacity v < v.sz + p_size then
    reserve v ((v.sz + p_size) * capacity_factor) else v) with hw
  have hwfacts : w.sz = v.sz ∧ contents w = contents v ∧
      v.sz + p_size ≤ capacity w := by
    rw [hw]
    by_cases h : capacity v < v.sz + p_size
    · rw [if_pos h]
      have h0 : (v.sz + p_size) * capacity_factor ≠ 0 := by
        rw [hcf]; rw [capacity] at h; omega
      have hs := reserve_pos_spec v ((v.sz + p_size) * capacity_factor) hwf h0
      refine ⟨by rw [hs.2.1, hcf]; omega, ?_, by rw [hs.1, hcf]; omega⟩
      rw [hs.2.2.1]
      exact List.take_of_length_le (by rw [contents_length v hwf, hcf]; omega)
    · rw [if_neg h]
      exact ⟨rfl, rfl, by omega⟩
  obtain ⟨hwsz, hwc, hwcap⟩ := hwfacts
  rw [capacity] at hwcap
  have hpos2le : pos2 ≤ v.sz := by rw [hpos2]; split <;> omega
  have hbuf1 : writeRange w.buf pos2 p p_size =
      w.buf.take pos2 ++ p.take p_size ++ w.buf.drop (pos2 + p_size) :=
    writeRange_spec w.buf pos2 p p_size hp (by omega)
  have hbuf1len : (writeRange w.buf pos2 p p_size).length = w.buf.length :=
    writeRange_length ..
  by_cases hc : pos ≥ v.sz
  · -- append at the end: pos2 = v.sz, the tail copy is skipped
    have hp2 : pos2 = v.sz := by rw [hpos2, if_pos hc]
    rw [if_neg (by rw [hp2, hwsz]; simp)]
    refine ⟨trivial, ?_, ?_⟩
    · show v.sz + p_size ≤ (writeRange w.buf pos2 p p_size).length
      rw [hbuf1len]
      omega
    · show (writeRange w.buf pos2 p p_size).take (v.sz + p_size) = _
      rw [if_pos hc, hbuf1, hp2]
      have hA : (w.buf.take v.sz).length = v.sz := by
        rw [List.length_take]; omega
      have hAB : (w.buf.take v.sz ++ p.take p_size).length = v.sz + p_size := by
        rw [List.length_append, hA, List.length_take]; omega
      rw [List.take_left' hAB]
      congr 1
      rw [show w.buf.take v.sz = w.buf.take w.sz by rw [hwsz]]
      exact hwc
  · -- pos < v.sz: the saved tail is written back after the new elements
    have hp2 : pos2 = pos := by rw [hpos2, if_neg hc]
    have htempv : temp = fromBufOk (v.sz - pos) (v.buf.drop pos) := by
      rw [htemp, if_neg hc]
    have htsz : temp.sz = v.sz - pos := by rw [htempv]; rfl
    have htdroplen : (v.buf.drop pos).length = v.buf.length - pos :=
      List.length_drop ..
    have httake : ((v.buf.drop pos).take (v.sz - pos)).length = v.sz - pos := by
      rw [List.length_take]
      omega
    have htbuf : temp.buf =
        (v.buf.drop pos).take (v.sz - pos) ++
          (List.replicate ((v.sz - pos) * capacity_factor) default).drop
            (v.sz - pos) := by
      rw [htempv]
      rfl
    have htbuflen : temp.sz ≤ temp.buf.length := by
      rw [htsz, htbuf, List.length_append, httake]
      omega
    have httc : temp.buf.take temp.sz = (contents v).drop pos := by
      rw [htsz, htbuf, List.take_left' httake, contents, List.drop_take]
    have hcond : pos2 ≠ w.sz := by rw [hp2, hwsz]; omega
    rw [if_pos hcond]
    have hbuf2 : writeRange (writeRange w.buf pos2 p p_size) (pos2 + p_size)
        temp.buf temp.sz =
        (writeRange w.buf pos2 p p_size).take (pos2 + p_size) ++
          temp.buf.take temp.sz ++
          (writeRange w.buf pos2 p p_size).drop (pos2 + p_size + temp.sz) :=
      writeRange_spec _ _ _ _ htbuflen (by rw [hbuf1len, hp2, htsz]; omega)
    refine ⟨trivial, ?_, ?_⟩
    · show v.sz + p_size ≤
        (writeRange (writeRange w.buf pos2 p p_size) (pos2 + p_size)
          temp.buf temp.sz).length
      rw [writeRange_length, hbuf1len]
      omega
    · show (writeRange (writeRange w.buf pos2 p p_size) (pos2 + p_size)
          temp.buf temp.sz).take (v.sz + p_size) = _
      rw [if_neg hc, hbuf2, httc]
      have hl1 : ((writeRange w.buf pos2 p p_size).take (pos2 + p_size)).length =
          pos2 + p_size := by
        rw [List.length_take, hbuf1len]
        omega
      have hl12 : ((writeRange w.buf pos2 p p_size).take (pos2 + p_size) ++
          (contents v).drop pos).length = v.sz + p_size := by
        rw [List.length_append, hl1, List.length_drop, contents_length v hwf, hp2]
        omega
      rw [List.take_left' hl12]
      congr 1
      rw [hbuf1, hp2]
      have hA : (w.buf.take pos).length = pos := by
        rw [List.length_take]; omega
      have hAB : (w.buf.take pos ++ p.take p_size).length = pos + p_size := by
        rw [List.length_append, hA, List.length_take]; omega
      rw [List.take_left' hAB]
      congr 1
      rw [← hwc]
      show w.buf.take pos = (w.buf.take w.sz).take pos
      rw [List.take_take]
      congr 1
      omega

theorem applyOp_spec {α : Type} [Inhabited α] (v : vec α) (op : Op α) (hwf : wf v)
    (hop : opNoWrap v op = true) :
    wf (applyOp v op) ∧ contents (applyOp v op) = modelOp (contents v) op := by
  cases op with
  | push x =>
    have h := push_back_spec v x hwf
    exact ⟨h.2.2, h.2.1⟩
  | pop =>
    have h := pop_back_spec v hwf
    exact ⟨h.2.2, h.2.1⟩
  | ins pos p =>
    have h := insert_spec v pos p p.length hwf (le_refl _)
    refine ⟨h.2.1, ?_⟩
    show contents (insert v pos p p.length) = _
    rw [h.2.2]
    simp only [modelOp, contents_length v hwf, List.take_length]
  | er pos len =>
    have hop2 : pos + (if len = 0 then v.sz else len) < sizeTMod ∧
        v.sz < sizeTMod := by
      simpa [opNoWrap] using hop
    have h := erase_spec v pos len hwf hop2.2
    by_cases hgt : pos > v.sz
    · show wf (erase v pos len) ∧ contents (erase v pos len) = _
      rw [h.1 hgt]
      refine ⟨hwf, ?_⟩
      simp only [modelOp, contents_length v hwf]
      rw [if_pos hgt]
    · have h2 := h.2 (by omega) hop2.1
      refine ⟨h2.2.2, ?_⟩
      show contents (erase v pos len) = _
      rw [h2.2.1]
      simp only [modelOp, contents_length v hwf]
      rw [if_neg hgt]

/-! ## vector.h : claim theorems -/

/-- Claim C2 (amended): after any finite sequence of push_back / pop_back /
insert / erase steps starting from a well-formed vector, in which no erase
step's size_t sum pos + len wraps modulo 2^64, 0 ≤ size ≤ capacity holds
and the first size slots of the block are exactly the logical contents the
operation sequence prescribes.  Without the no-wrap condition the claim
fails: erase with len near SIZE_MAX reruns the loop on wrapped indices and
can grow the vector. -/
theorem claim2_container_invariant {α : Type} [Inhabited α] (v : vec α)
    (ops : List (Op α)) (hwf : wf v) (hops : opsNoWrap v ops = true) :
    0 ≤ (applyOps v ops).sz ∧ (applyOps v ops).sz ≤ capacity (applyOps v ops) ∧
      contents (applyOps v ops) = modelOps (contents v) ops := by
  induction ops generalizing v with
  | nil => exact ⟨Nat.zero_le _, hwf, rfl⟩
  | cons op rest ih =>
    rw [opsNoWrap, Bool.and_eq_true] at hops
    have h := applyOp_spec v op hwf hops.1
    have hr := ih (applyOp v op) h.1 hops.2
    refine ⟨Nat.zero_le _, hr.2.1, ?_⟩
    show contents (applyOps (applyOp v op) rest) =
      modelOps (modelOp (contents v) op) rest
    rw [hr.2.2, h.2]

theorem claim2_container_invariant_witness :
    0 ≤ (applyOps (⟨List.replicate 10 (0 : Int), 0⟩ : vec Int)
        [Op.push 1, Op.push 2, Op.push 3, Op.ins 1 [7, 8], Op.er 0 2, Op.pop]).sz ∧
      (applyOps (⟨List.replicate 10 (0 : Int), 0⟩ : vec Int)
        [Op.push 1, Op.push 2, Op.push 3, Op.ins 1 [7, 8], Op.er 0 2, Op.pop]).sz ≤
        capacity (applyOps (⟨List.replicate 10 (0 : Int), 0⟩ : vec Int)
          [Op.push 1, Op.push 2, Op.push 3, Op.ins 1 [7, 8], Op.er 0 2, Op.pop]) ∧
      contents (applyOps (⟨List.replicate 10 (0 : Int), 0⟩ : vec Int)
          [Op.push 1, Op.push 2, Op.push 3, Op.ins 1 [7, 8], Op.er 0 2, Op.pop]) =
        modelOps (contents (⟨List.replicate 10 (0 : Int), 0⟩ : vec Int))
          [Op.push 1, Op.push 2, Op.push 3, Op.ins 1 [7, 8], Op.er 0 2, Op.pop] :=
  claim2_container_invariant _ _ (by decide) (by decide)

/-- Claim C2 counterexample to the unrestricted statement: on a size-3,
capacity-6 vector, the single step erase(1, SIZE_MAX) wraps the loop guard
(1 + SIZE_MAX is 0 in size_t), copies start[0..2] into start[1..3] and
sets the size to 4, so the stored contents [10, 10, 10, 10] differ from
the prescribed logical contents [10]. -/
theorem claim2_wrap_counterexample :
    contents (applyOps (⟨[10, 20, 30, 0, 0, 0], 3⟩ : vec Int)
        [Op.er 1 (sizeTMod - 1)]) = [10, 10, 10, 10] ∧
      ¬contents (applyOps (⟨[10, 20, 30, 0, 0, 0], 3⟩ : vec Int)
          [Op.er 1 (sizeTMod - 1)]) =
        modelOps (contents (⟨[10, 20, 30, 0, 0, 0], 3⟩ : vec Int))
          [Op.er 1 (sizeTMod - 1)] := by
  constructor
  · decide
  · decide

/-- Claim C3, for the non-const operator[] only: indexed access fails with
out_of_range exactly when pos ≥ size, and otherwise returns the element at
logical position pos, never clamping.  The const-qualified overload
(vector.h lines 429-432) instead calls itself and never returns. -/
theorem claim3_index_access {α : Type} [Inhabited α] (v : vec α) (pos : Nat)
    (hwf : wf v) :
    (pos ≥ v.sz → getAt v pos = .error .outOfRange) ∧
    (pos < v.sz → getAt v pos = .ok ((contents v).getD pos default)) := by
  constructor
  · intro h
    rw [getAt, if_pos h]
  · intro h
    rw [getAt, if_neg (by omega)]
    congr 1
    rw [List.getD_eq_getElem v.buf default (by rw [wf] at hwf; omega),
      List.getD_eq_getElem (contents v) default (by rw [contents_length v hwf]; omega)]
    exact (List.getElem_take ..).symm

theorem claim3_index_access_witness :
    ((2 : Nat) ≥ (⟨[5, 6], 2⟩ : vec Int).sz →
      getAt (⟨[5, 6], 2⟩ : vec Int) 2 = .error .outOfRange) ∧
    ((2 : Nat) < (⟨[5, 6], 2⟩ : vec Int).sz →
      getAt (⟨[5, 6], 2⟩ : vec Int) 2 =
        .ok ((contents (⟨[5, 6], 2⟩ : vec Int)).getD 2 default)) :=
  claim3_index_access (⟨[5, 6], 2⟩ : vec Int) 2 (by decide)

/-- Claim C4 (amended): erase(pos, len) does nothing when pos > size; when
the size_t sum of pos and the effective length does not wrap modulo 2^64
(and the size is a size_t value), len = 0 erases from pos to the end and
otherwise the valid overlap [pos, min(pos+len, size)) is removed and the
tail shifts left; erase(3,3) on a size-11 vector leaves the 8 remaining
elements in order.  Without the no-wrap condition the loop reruns on
wrapped indices and can grow the vector. -/
theorem claim4_erase_semantics {α : Type} [Inhabited α] (v : vec α)
    (pos len : Nat) (hwf : wf v) (hsmod : v.sz < sizeTMod)
    (hnw : pos + (if len = 0 then v.sz else len) < sizeTMod) :
    (pos > v.sz → erase v pos len = v) ∧
    (pos ≤ v.sz → len = 0 →
      contents (erase v pos len) = (contents v).take pos) ∧
    (pos ≤ v.sz →
      contents (erase v pos len) =
        (contents v).take pos ++
          (contents v).drop (pos + (if len = 0 then v.sz else len))) ∧
    contents (erase (⟨[0, 1, 2, 3, 4, 5, 6, 7, 8, 9, 10], 11⟩ : vec Int) 3 3) =
      [0, 1, 2, 6, 7, 8, 9, 10] ∧
    (erase (⟨[0, 1, 2, 3, 4, 5, 6, 7, 8, 9, 10], 11⟩ : vec Int) 3 3).sz = 8 := by
  have h := erase_spec v pos len hwf hsmod
  refine ⟨h.1, ?_, fun hp => (h.2 hp hnw).2.1, by decide, by decide⟩
  intro hp hlen
  rw [(h.2 hp hnw).2.1, hlen, if_pos rfl,
    List.drop_eq_nil_of_le (by rw [contents_length v hwf]; omega)]
  simp

/-- Claim C4 counterexample to the unrestricted statement: erase(1,
SIZE_MAX) on a size-3, capacity-6 vector wraps the size_t guard
(1 + SIZE_MAX is 0), so the loop copies start[0..2] into start[1..3] and
sets finish = start + 4: the vector grows to [10, 10, 10, 10] of size 4
instead of shrinking to the overlap-erased [10] of size 1. -/
theorem claim4_wrap_counterexample :
    (erase (⟨[10, 20, 30, 0, 0, 0], 3⟩ : vec Int) 1 (sizeTMod - 1)).sz = 4 ∧
      contents (erase (⟨[10, 20, 30, 0, 0, 0], 3⟩ : vec Int) 1 (sizeTMod - 1)) =
        [10, 10, 10, 10] ∧
      ¬contents (erase (⟨[10, 20, 30, 0, 0, 0], 3⟩ : vec Int) 1 (sizeTMod - 1)) =
        (contents (⟨[10, 20, 30, 0, 0, 0], 3⟩ : vec Int)).take 1 ++
          (contents (⟨[10, 20, 30, 0, 0, 0], 3⟩ : vec Int)).drop
            (1 + (sizeTMod - 1)) := by
  refine ⟨by decide, by decide, by decide⟩

theorem claim4_erase_semantics_witness :
    ((3 : Nat) > (⟨[0, 1, 2, 3, 4, 5, 6, 7, 8, 9, 10], 11⟩ : vec Int).sz →
      erase (⟨[0, 1, 2, 3, 4, 5, 6, 7, 8, 9, 10], 11⟩ : vec Int) 3 3 =
        ⟨[0, 1, 2, 3, 4, 5, 6, 7, 8, 9, 10], 11⟩) ∧
    ((3 : Nat) ≤ (⟨[0, 1, 2, 3, 4, 5, 6, 7, 8, 9, 10], 11⟩ : vec Int).sz →
      (3 : Nat) = 0 →
      contents (erase (⟨[0, 1, 2, 3, 4, 5, 6, 7, 8, 9, 10], 11⟩ : vec Int) 3 3) =
        (contents (⟨[0, 1, 2, 3, 4, 5, 6, 7, 8, 9, 10], 11⟩ : vec Int)).take 3) ∧
    ((3 : Nat) ≤ (⟨[0, 1, 2, 3, 4, 5, 6, 7, 8, 9, 10], 11⟩ : vec Int).sz →
      contents (erase (⟨[0, 1, 2, 3, 4, 5, 6, 7, 8, 9, 10], 11⟩ : vec Int) 3 3) =
        (contents (⟨[0, 1, 2, 3, 4, 5, 6, 7, 8, 9, 10], 11⟩ : vec Int)).take 3 ++
          (contents (⟨[0, 1, 2, 3, 4, 5, 6, 7, 8, 9, 10], 11⟩ : vec Int)).drop
            (3 + (if (3 : Nat) = 0 then
              (⟨[0, 1, 2, 3, 4, 5, 6, 7, 8, 9, 10], 11⟩ : vec Int).sz else 3))) ∧
    contents (erase (⟨[0, 1, 2, 3, 4, 5, 6, 7, 8, 9, 10], 11⟩ : vec Int) 3 3) =
      [0, 1, 2, 6, 7, 8, 9, 10] ∧
    (erase (⟨[0, 1, 2, 3, 4, 5, 6, 7, 8, 9, 10], 11⟩ : vec Int) 3 3).sz = 8 :=
  claim4_erase_semantics (⟨[0, 1, 2, 3, 4, 5, 6, 7, 8, 9, 10], 11⟩ : vec Int) 3 3
    (by decide) (by decide) (by decide)

theorem writeRange_congr {α : Type} [Inhabited α] (buf : List α) (st : Nat)
    (src src2 : List α) (n : Nat) (h : src.take n = src2.take n) :
    writeRange buf st src n = writeRange buf st src2 n := by
  induction n with
  | zero => rfl
  | succ k ih =>
    have hk : src.take k = src2.take k := by
      have h2 := congrArg (List.take k) h
      rw [List.take_take, List.take_take, show k ⊓ (k + 1) = k by omega] at h2
      exact h2
    have ht : ∀ (l : List α), (l.take (k + 1)).getD k default = l.getD k default := by
      intro l
      rcases Nat.lt_or_ge k l.length with hlt | hge
      · rw [List.getD_eq_getElem _ _ (by rw [List.length_take]; omega),
          List.getD_eq_getElem _ _ hlt]
        exact List.getElem_take ..
      · rw [List.getD_eq_default _ _ (by rw [List.length_take]; omega),
          List.getD_eq_default _ _ hge]
    have hD : src.getD k default = src2.getD k default := by
      rw [← ht src, ← ht src2, h]
    show (writeRange buf st src k).set (st + k) (src.getD k default) = _
    rw [ih hk, hD]
    rfl

/-- insert only reads the first p_size slots of the source buffer. -/
theorem insert_congr {α : Type} [Inhabited α] (v : vec α) (pos : Nat)
    (p p2 : List α) (n : Nat) (h : p.take n = p2.take n) :
    insert v pos p n = insert v pos p2 n := by
  simp only [insert]
  rw [writeRange_congr _ _ _ _ _ h]

/-- Claim C5: insert(pos, p, count) appends at the end when pos ≥ size and
otherwise produces prefix ++ new elements ++ old tail, growing size by
count; the single-element form is the bulk form on one element, and the
container form with count 0 uses the other container's full size. -/
theorem claim5_insert_semantics {α : Type} [Inhabited α] (v : vec α) (pos : Nat)
    (p : List α) (x : α) (other : vec α) (hwf : wf v) :
    (insert v pos p p.length).sz = v.sz + p.length ∧
    (pos ≥ v.sz → contents (insert v pos p p.length) = contents v ++ p) ∧
    (pos < v.sz → contents (insert v pos p p.length) =
      (contents v).take pos ++ p ++ (contents v).drop pos) ∧
    insertOne v pos x = insert v pos [x] 1 ∧
    insertVec v pos other 0 = insert v pos other.buf other.sz := by
  have h := insert_spec v pos p p.length hwf (le_refl _)
  refine ⟨h.1, ?_, ?_, ?_, ?_⟩
  · intro hp
    rw [h.2.2, if_pos hp, List.take_length]
  · intro hp
    rw [h.2.2, if_neg (by omega), List.take_length]
  · show insertVec v pos (fromListOk [x]) 0 = insert v pos [x] 1
    rw [insertVec, if_pos rfl]
    have hbuf : (fromListOk [x]).buf = [x, default] := rfl
    have hsz1 : (fromListOk [x]).sz = 1 := rfl
    rw [hbuf, hsz1]
    exact insert_congr v pos [x, default] [x] 1 rfl
  · rw [insertVec, if_pos rfl]

theorem claim5_insert_semantics_witness :
    (insert (⟨[1, 2, 3, 4], 3⟩ : vec Int) 1 [7, 8] 2).sz = 3 + 2 ∧
    ((1 : Nat) ≥ (⟨[1, 2, 3, 4], 3⟩ : vec Int).sz →
      contents (insert (⟨[1, 2, 3, 4], 3⟩ : vec Int) 1 [7, 8] 2) =
        contents (⟨[1, 2, 3, 4], 3⟩ : vec Int) ++ [7, 8]) ∧
    ((1 : Nat) < (⟨[1, 2, 3, 4], 3⟩ : vec Int).sz →
      contents (insert (⟨[1, 2, 3, 4], 3⟩ : vec Int) 1 [7, 8] 2) =
        (contents (⟨[1, 2, 3, 4], 3⟩ : vec Int)).take 1 ++ [7, 8] ++
          (contents (⟨[1, 2, 3, 4], 3⟩ : vec Int)).drop 1) ∧
    insertOne (⟨[1, 2, 3, 4], 3⟩ : vec Int) 1 9 =
      insert (⟨[1, 2, 3, 4], 3⟩ : vec Int) 1 [9] 1 ∧
    insertVec (⟨[1, 2, 3, 4], 3⟩ : vec Int) 1 (⟨[5], 1⟩ : vec Int) 0 =
      insert (⟨[1, 2, 3, 4], 3⟩ : vec Int) 1 (⟨[5], 1⟩ : vec Int).buf
        (⟨[5], 1⟩ : vec Int).sz := by
  have h := claim5_insert_semantics (⟨[1, 2, 3, 4], 3⟩ : vec Int) 1 [7, 8] 9
    (⟨[5], 1⟩ : vec Int) (by decide)
  exact h

/-- Claim C6: reserve(0) is exactly clear(); reserve at the current
capacity is a no-op; otherwise the capacity becomes exactly n, the first
min(n, size) elements survive in order and the size becomes min(n, size). -/
theorem claim6_reserve_semantics {α : Type} [Inhabited α] (v : vec α) (n : Nat)
    (hwf : wf v) :
    reserve v 0 = clear v ∧
    (n ≠ 0 → n = capacity v → reserve v n = v) ∧
    (n ≠ 0 → n ≠ capacity v →
      capacity (reserve v n) = n ∧ (reserve v n).sz = min n v.sz ∧
      contents (reserve v n) = (contents v).take (min n v.sz)) := by
  refine ⟨by rw [reserve, if_pos rfl], ?_, ?_⟩
  · intro h0 hcap
    rw [reserve, if_neg h0, if_pos hcap]
  · intro h0 hcap
    have hs := reserve_pos_spec v n hwf h0
    refine ⟨hs.1, hs.2.1, ?_⟩
    rw [hs.2.2.1, contents, List.take_take, List.take_take]
    congr 1
    omega

theorem claim6_reserve_semantics_witness :
    reserve (⟨[1, 2, 3], 2⟩ : vec Int) 0 = clear (⟨[1, 2, 3], 2⟩ : vec Int) ∧
    ((5 : Nat) ≠ 0 → (5 : Nat) = capacity (⟨[1, 2, 3], 2⟩ : vec Int) →
      reserve (⟨[1, 2, 3], 2⟩ : vec Int) 5 = ⟨[1, 2, 3], 2⟩) ∧
    ((5 : Nat) ≠ 0 → (5 : Nat) ≠ capacity (⟨[1, 2, 3], 2⟩ : vec Int) →
      capacity (reserve (⟨[1, 2, 3], 2⟩ : vec Int) 5) = 5 ∧
      (reserve (⟨[1, 2, 3], 2⟩ : vec Int) 5).sz = min 5 2 ∧
      contents (reserve (⟨[1, 2, 3], 2⟩ : vec Int) 5) =
        (contents (⟨[1, 2, 3], 2⟩ : vec Int)).take (min 5 2)) :=
  claim6_reserve_semantics (⟨[1, 2, 3], 2⟩ : vec Int) 5 (by decide)

/-- Claim C10: every constructor that sizes its allocation as
source-count * capacity_factor fails with bad_alloc when the count is 0:
allocate(0) yields a null pointer and create_storage throws.  This hits
copy construction and move construction from an empty vector, vector(0),
and construction from an empty initializer list. -/
theorem claim10_zero_count_allocation {α : Type} [Inhabited α] (v : vec α)
    (h : v.sz = 0) :
    allocate α 0 = none ∧ copyCtor v = .error .badAlloc ∧
      moveCtor v = .error .badAlloc ∧ mkN α 0 = .error .badAlloc ∧
      fromList ([] : List α) = .error .badAlloc := by
  refine ⟨rfl, ?_, ?_, rfl, rfl⟩
  · rw [copyCtor, h]
    rfl
  · rw [moveCtor, h]
    rfl

theorem claim10_zero_count_allocation_witness :
    allocate Int 0 = none ∧ copyCtor (⟨[], 0⟩ : vec Int) = .error .badAlloc ∧
      moveCtor (⟨[], 0⟩ : vec Int) = .error .badAlloc ∧
      mkN Int 0 = .error .badAlloc ∧
      fromList ([] : List Int) = .error .badAlloc :=
  claim10_zero_count_allocation (⟨[], 0⟩ : vec Int) rfl

end Lab
